import Mathlib

/-!
Verification of the identity-matching and merge-reconciliation core of the
paper-updater (src/updater/src/main_improved.rs).

The Rust code is shallowly embedded: strings are Lean `String`s (lists of
characters), `f64` similarity arithmetic is modelled by exact rationals,
`Option` fields mirror Rust `Option`, and the two reconciliation functions
are modelled as pure functions from a paper and a list of pre-extracted
remote candidates to an updated paper plus a list of emitted events.
External collaborators (HTTP fetch, XML parsing, RFC3339 date parsing by
the chrono crate, the bibtex fetch) are modelled at their interface
boundary: a candidate carries the already-extracted optional fields, with
`none` standing for a missing node, missing text, or a failed parse/fetch.
Character classes (`\w`, `\s`, alphabetic, lowercasing) are modelled at
ASCII granularity via Lean's `Char` predicates.
-/

/-- Character class of the regex `\w` used in `normalize_title`
(`Regex::new(r"[^\w\s]")`): word characters, i.e. alphanumerics or
underscore. -/
def rustIsWordChar (c : Char) : Bool := c.isAlphanum || c == '_'

/-- A character survives `re.replace_all(title, "")` for the regex
`[^\w\s]` exactly when it is a word character or whitespace. -/
def keepChar (c : Char) : Bool := rustIsWordChar c || c.isWhitespace

/-- Helper for `wordsOf`: scan the characters once, accumulating the
current word in reverse. -/
def wordsAux : List Char → List Char → List (List Char)
  | [], acc => if acc = [] then [] else [acc.reverse]
  | c :: cs, acc =>
    if c.isWhitespace then
      if acc = [] then wordsAux cs [] else acc.reverse :: wordsAux cs []
    else wordsAux cs (c :: acc)

/-- Rust `str::split_whitespace` on a character list: the maximal runs of
non-whitespace characters, in order. -/
def wordsOf (l : List Char) : List (List Char) := wordsAux l []

theorem wordsAux_word : ∀ (cs acc : List Char), acc ≠ [] →
    wordsAux cs acc =
      (acc.reverse ++ cs.takeWhile (fun d => !d.isWhitespace)) ::
        wordsAux (cs.dropWhile (fun d => !d.isWhitespace)) [] := by
  intro cs
  induction cs with
  | nil =>
    intro acc hacc
    simp [wordsAux, hacc]
  | cons d ds ih =>
    intro acc hacc
    cases hd : d.isWhitespace with
    | true =>
      rw [show wordsAux (d :: ds) acc = acc.reverse :: wordsAux ds [] from by
        simp [wordsAux, hd, hacc]]
      rw [List.takeWhile_cons, List.dropWhile_cons]
      simp only [hd, Bool.not_true, Bool.false_eq_true, if_false, ite_false]
      rw [show wordsAux (d :: ds) [] = wordsAux ds [] from by simp [wordsAux, hd]]
      simp
    | false =>
      rw [show wordsAux (d :: ds) acc = wordsAux ds (d :: acc) from by simp [wordsAux, hd]]
      rw [ih (d :: acc) (by simp)]
      rw [List.takeWhile_cons, List.dropWhile_cons]
      simp only [hd, Bool.not_false, if_true, ite_true]
      simp [List.append_assoc]

theorem wordsOf_nil : wordsOf [] = [] := rfl

theorem wordsOf_cons_ws {c : Char} (cs : List Char) (h : c.isWhitespace = true) :
    wordsOf (c :: cs) = wordsOf cs := by
  simp [wordsOf, wordsAux, h]

theorem wordsOf_cons_nws {c : Char} (cs : List Char) (h : c.isWhitespace = false) :
    wordsOf (c :: cs) =
      (c :: cs.takeWhile (fun d => !d.isWhitespace)) ::
        wordsOf (cs.dropWhile (fun d => !d.isWhitespace)) := by
  unfold wordsOf
  rw [show wordsAux (c :: cs) [] = wordsAux cs [c] from by simp [wordsAux, h]]
  rw [wordsAux_word cs [c] (by simp)]
  simp

/-- `Vec::join(" ")` on a list of words. -/
def joinWords : List (List Char) → List Char
  | [] => []
  | [w] => w
  | w :: ws => w ++ ' ' :: joinWords ws

/-- Remove trailing whitespace (the right half of Rust `str::trim`),
written structurally so that heads are preserved. -/
def trimRightChars : List Char → List Char
  | [] => []
  | c :: cs =>
    match trimRightChars cs with
    | [] => if c.isWhitespace then [] else [c]
    | r => c :: r

/-- Rust `str::trim`: remove leading and trailing whitespace. -/
def trimChars (l : List Char) : List Char :=
  trimRightChars (l.dropWhile Char.isWhitespace)

/-- Rust `str::to_lowercase`, modelled characterwise (ASCII). -/
def lowerStr (s : String) : String := String.mk (s.data.map Char.toLower)

/-- `normalize_title` from main_improved.rs: delete every character that is
neither a word character nor whitespace, lowercase, split on whitespace,
join the pieces with single spaces, trim. -/
def normalize_title (s : String) : String :=
  String.mk (trimChars (joinWords (wordsOf
    ((s.data.filter keepChar).map Char.toLower))))

/-- Unit-cost Levenshtein edit distance (the `levenshtein` crate):
insertion, deletion and substitution each cost one. -/
def lev : List Char → List Char → Nat
  | [], ys => ys.length
  | xs, [] => xs.length
  | x :: xs, y :: ys =>
    min (lev xs (y :: ys) + 1)
      (min (lev (x :: xs) ys + 1)
        (lev xs ys + (if x = y then 0 else 1)))
  termination_by xs ys => xs.length + ys.length

/-- Rust `String::len`: the UTF-8 byte length of a string. -/
def byteLen (s : String) : Nat := (s.data.map Char.utf8Size).sum

/-- The distinct whitespace-separated tokens of a string
(`split_whitespace().collect::<HashSet<&str>>()`). -/
def tokensOf (s : String) : Finset (List Char) := (wordsOf s.data).toFinset

/-- `similarity_score` from main_improved.rs, with `f64` arithmetic
modelled by exact rationals: `0.7 * jaccard + 0.3 * levenshteinSimilarity`
on the normalized titles, and `0` when the token-set union is empty. -/
def similarity_score (s1 s2 : String) : ℚ :=
  let norm1 := normalize_title s1
  let norm2 := normalize_title s2
  let tokens1 := tokensOf norm1
  let tokens2 := tokensOf norm2
  let intersection := (tokens1 ∩ tokens2).card
  let union := (tokens1 ∪ tokens2).card
  if union = 0 then 0
  else
    let jaccard : ℚ := (intersection : ℚ) / (union : ℚ)
    let maxLen : ℚ := ((max (byteLen norm1) (byteLen norm2) : Nat) : ℚ)
    let levSimilarity : ℚ := 1 - ((lev norm1.data norm2.data : Nat) : ℚ) / maxLen
    7/10 * jaccard + 3/10 * levSimilarity

/-- Rust `str::split(&[',', ';', '&'][..])`: split at every delimiter,
keeping empty segments (and producing one empty segment for ""). -/
def splitDelims : List Char → List (List Char)
  | [] => [[]]
  | c :: cs =>
    if c = ',' ∨ c = ';' ∨ c = '&' then [] :: splitDelims cs
    else
      match splitDelims cs with
      | [] => [[c]]
      | s :: ss => (c :: s) :: ss

/-- `str::trim_matches(|c| !c.is_alphabetic())`: strip non-alphabetic
characters from both ends. -/
def trimNonAlpha (l : List Char) : List Char :=
  ((l.dropWhile (fun c => !c.isAlpha)).reverse.dropWhile (fun c => !c.isAlpha)).reverse

/-- `Vec::join(sep)` for strings. -/
def joinSep (sep : String) : List String → String
  | [] => ""
  | [x] => x
  | x :: xs => x ++ sep ++ joinSep sep xs

/-- One segment of `extract_authors_last_names`: trim, take the last
whitespace-separated token (or "" when there is none), strip surrounding
non-alphabetic characters. -/
def surnameOf (seg : List Char) : List Char :=
  trimNonAlpha ((wordsOf (trimChars seg)).getLastD [])

/-- `extract_authors_last_names` from main_improved.rs. -/
def extract_authors_last_names (s : String) : String :=
  joinSep ", "
    (((splitDelims s.data).map (fun seg => String.mk (surnameOf seg))).filter
      (fun n => n ≠ ""))

/-- Rust `str::parse::<i32>()` (`.ok()` modelled by `Option`): an optional
sign followed by one or more ASCII digits, rejecting values outside the
`i32` range. -/
def rustParseI32 (s : String) : Option Int :=
  let signDigits : Int × List Char :=
    match s.data with
    | '+' :: t => (1, t)
    | '-' :: t => (-1, t)
    | t => (1, t)
  let ds := signDigits.2
  if ds = [] then none
  else if ds.all Char.isDigit then
    let v : Int := signDigits.1 * (ds.foldl (fun acc c => 10 * acc + (c.toNat - 48)) 0 : Nat)
    if -2147483648 ≤ v ∧ v ≤ 2147483647 then some v else none
  else none

/-- The `Publication` struct of main_improved.rs. -/
structure Publication where
  name : String
  url : Option String
  year : Option Int
  month : Option Nat
  day : Option Nat
  dblp_key : Option String
  bibtex : Option String
deriving DecidableEq, Repr

/-- The `Paper` struct of main_improved.rs. -/
structure Paper where
  title : String
  authors : Option String
  labels : List String
  publications : List Publication
deriving DecidableEq, Repr

/-- A calendar date already parsed from an RFC3339 timestamp
(`DateTime::parse_from_rfc3339` followed by `year()`, `month()`, `day()`;
the chrono crate is an external collaborator, so candidates carry the
parse result, `none` standing for a missing node or a failed parse). -/
structure PDate where
  year : Int
  month : Nat
  day : Nat
deriving DecidableEq, Repr

/-- A pre-extracted arXiv search hit (one `<entry>` element): the title
text (`none` when the node or its text is missing; the code substitutes
""), the texts of the `<name>` descendants, the parsed publish date, and
the `<id>` text. -/
structure ArxivEntry where
  title : Option String
  authors : List String
  published : Option PDate
  idUrl : Option String
deriving DecidableEq, Repr

/-- A pre-extracted DBLP search hit (one `<hit>` element), plus the result
`bibtexFetch` of the external bibtex fetch for its key (the code only
performs that fetch when `key` is present, and a failed fetch yields
`none`). -/
structure DblpHit where
  title : Option String
  venue : Option String
  authors : List String
  year : Option String
  key : Option String
  ee : Option String
  bibtexFetch : Option String
deriving DecidableEq, Repr

/-- The observable change report of one reconciliation: the console events
of main_improved.rs. `authorsUpdated` is the "Updated authors" message,
`pubUpdated` the "Updated ... publication details" / "Updated arXiv
preprint URL" message, `newPublication` the "Added new ..." message
(which is the event that increments `stats.new_publications`). The
`updated` flag that increments the per-source update counter is set
exactly when at least one event was emitted. -/
inductive Event where
  | authorsUpdated
  | pubUpdated
  | newPublication
deriving DecidableEq, Repr

/-- `if paper.authors.is_none() { ... }`: set `authors` from the candidate
author names (joined with ", ", reduced to surnames) only when the field
is absent and the candidate supplies at least one name. -/
def withAuthors (p : Paper) (authors : List String) : Paper × List Event :=
  if p.authors = none ∧ authors ≠ [] then
    ({ p with authors := some (extract_authors_last_names (joinSep ", " authors)) },
     [Event.authorsUpdated])
  else (p, [])

/-- `iter_mut().find(pred)` followed by an in-place mutation: rewrite the
first list element satisfying the predicate. -/
def updateFirst (pred : Publication → Bool) (f : Publication → Publication) :
    List Publication → List Publication
  | [] => []
  | p :: ps => if pred p then f p :: ps else p :: updateFirst pred f ps

/-- `if field.is_none() && candidate.is_some() { field = candidate }`:
fill an optional field only when it is absent. -/
def fillField (old cand : Option String) : Option String :=
  match old with
  | some v => some v
  | none => cand

/-- `v\d+$` stripped from the end (`re.replace_all(id_text, "")`): remove
a trailing "v" followed by one or more digits. -/
def stripVersionSuffix (s : String) : String :=
  match s.data.reverse.takeWhile Char.isDigit, s.data.reverse.dropWhile Char.isDigit with
  | _ :: _, 'v' :: rest => String.mk rest.reverse
  | _, _ => s

/-- `str::replace("http://", "https://")`: replace every occurrence,
scanning left to right. -/
def replaceHttp : List Char → List Char
  | 'h' :: 't' :: 't' :: 'p' :: ':' :: '/' :: '/' :: rest =>
    'h' :: 't' :: 't' :: 'p' :: 's' :: ':' :: '/' :: '/' :: replaceHttp rest
  | c :: cs => c :: replaceHttp cs
  | [] => []

/-- The cleaned arXiv URL: version suffix stripped, then scheme rewritten
to https (the order used by main_improved.rs). -/
def cleanUrl (s : String) : String :=
  String.mk (replaceHttp (stripVersionSuffix s).data)

/-- The body of the arXiv match branch of `update_paper_from_arxiv`
(main_improved.rs lines 153-232), applied to the first qualifying entry:
update absent authors; then, when the candidate has a parsed publish date
and an id, build the fresh "arXiv" Publication and replace the existing
entry named "arXiv" wholesale (emitting `pubUpdated` when the URL
changed) or append it (emitting `newPublication`). -/
def arxivMergeEntry (p : Paper) (e : ArxivEntry) : Paper × List Event :=
  let pa := withAuthors p e.authors
  match e.published, e.idUrl with
  | some d, some id =>
    let clean := cleanUrl id
    let fresh : Publication :=
      { name := "arXiv", url := some clean, year := some d.year,
        month := some d.month, day := some d.day, dblp_key := none, bibtex := none }
    match pa.1.publications.find? (fun q => q.name == "arXiv") with
    | some old =>
      let newPubs := updateFirst (fun q => q.name == "arXiv") (fun _ => fresh) pa.1.publications
      ({ pa.1 with publications := newPubs },
       pa.2 ++ (if old.url = some clean then [] else [Event.pubUpdated]))
    | none =>
      ({ pa.1 with publications := pa.1.publications ++ [fresh] },
       pa.2 ++ [Event.newPublication])
  | _, _ => pa

/-- The entry loop of `update_paper_from_arxiv`: scan the hits in order,
merge the first one whose similarity to the record title reaches the
threshold, then stop. -/
def update_paper_from_arxiv (p : Paper) (threshold : ℚ) :
    List ArxivEntry → Paper × List Event
  | [] => (p, [])
  | e :: es =>
    if threshold ≤ similarity_score (e.title.getD "") p.title then
      arxivMergeEntry p e
    else update_paper_from_arxiv p threshold es

/-- The bibtex value used by the DBLP merge: the external fetch is only
attempted when a key is present. -/
def bibtexVal (h : DblpHit) : Option String :=
  if h.key.isSome then h.bibtexFetch else none

/-- The body of the DBLP match branch of `update_paper_from_dblp`
(main_improved.rs lines 284-377), applied to a qualifying candidate that
passed the venue filter: update absent authors; locate an existing
Publication by case-insensitive venue name and fill its absent
`dblp_key`, `bibtex`, `url` fields (emitting `pubUpdated` when at least
one was filled), or append a new Publication built from the candidate
(emitting `newPublication`). -/
def dblpMergeHit (p : Paper) (h : DblpHit) : Paper × List Event :=
  let venue := h.venue.getD ""
  let pa := withAuthors p h.authors
  let year := h.year.bind (fun y => rustParseI32 y)
  let bib := bibtexVal h
  match pa.1.publications.find? (fun q => lowerStr q.name == lowerStr venue) with
  | some old =>
    let changed := (old.dblp_key.isNone && h.key.isSome) ||
      (old.bibtex.isNone && bib.isSome) || (old.url.isNone && h.ee.isSome)
    let fill := fun (q : Publication) =>
      { q with dblp_key := fillField q.dblp_key h.key,
               bibtex := fillField q.bibtex bib,
               url := fillField q.url h.ee }
    let newPubs := updateFirst (fun q => lowerStr q.name == lowerStr venue) fill pa.1.publications
    ({ pa.1 with publications := newPubs },
     pa.2 ++ (if changed then [Event.pubUpdated] else []))
  | none =>
    let newPub : Publication :=
      { name := venue, url := h.ee, year := year, month := none,
        day := none, dblp_key := h.key, bibtex := bib }
    ({ pa.1 with publications := pa.1.publications ++ [newPub] },
     pa.2 ++ [Event.newPublication])

/-- The hit loop of `update_paper_from_dblp`: scan the hits in order; a
hit below the similarity threshold is passed over, a qualifying hit whose
venue is "CoRR" or empty is skipped (`continue`), and the first hit
passing both checks is merged, after which the search stops. -/
def update_paper_from_dblp (p : Paper) (threshold : ℚ) :
    List DblpHit → Paper × List Event
  | [] => (p, [])
  | h :: hs =>
    if threshold ≤ similarity_score (h.title.getD "") p.title then
      if h.venue.getD "" = "CoRR" ∨ h.venue.getD "" = "" then
        update_paper_from_dblp p threshold hs
      else dblpMergeHit p h
    else update_paper_from_dblp p threshold hs

/-- One reconciliation of a record against one remote source: the
threshold and the pre-extracted candidate list. -/
inductive RecStep where
  | arxiv (threshold : ℚ) (entries : List ArxivEntry)
  | dblp (threshold : ℚ) (hits : List DblpHit)

/-- Apply one reconciliation to a paper (the in-place mutation of
main_improved.rs, with the change report dropped). -/
def applyStep (p : Paper) : RecStep → Paper
  | RecStep.arxiv th es => (update_paper_from_arxiv p th es).1
  | RecStep.dblp th hs => (update_paper_from_dblp p th hs).1

/-- Apply a sequence of reconciliations in order. -/
def applySteps (p : Paper) (steps : List RecStep) : Paper :=
  steps.foldl applyStep p

/-- The uniqueness invariant of the record data model: at most one
Publication per case-insensitive venue name, i.e. the lowercased names
are pairwise distinct. -/
def uniqueVenues (p : Paper) : Prop :=
  (p.publications.map (fun q => lowerStr q.name)).Nodup

instance (p : Paper) : Decidable (uniqueVenues p) :=
  decidable_of_iff
    ((p.publications.map (fun q => lowerStr q.name)).dedup =
      p.publications.map (fun q => lowerStr q.name))
    (by unfold uniqueVenues; exact List.dedup_eq_self)

theorem lev_nil_left (ys : List Char) : lev [] ys = ys.length := by
  simp [lev]

theorem lev_cons_nil (x : Char) (xs : List Char) : lev (x :: xs) [] = xs.length + 1 := by
  simp [lev]

theorem lev_cons_cons (x y : Char) (xs ys : List Char) :
    lev (x :: xs) (y :: ys) =
      min (lev xs (y :: ys) + 1)
        (min (lev (x :: xs) ys + 1) (lev xs ys + (if x = y then 0 else 1))) := by
  rw [lev]

theorem lev_self : ∀ l : List Char, lev l l = 0 := by
  intro l
  induction l with
  | nil => simp [lev]
  | cons x xs ih => rw [lev_cons_cons, if_pos rfl]; omega

theorem lev_le_max : ∀ xs ys : List Char, lev xs ys ≤ max xs.length ys.length := by
  intro xs
  induction xs with
  | nil => intro ys; rw [lev_nil_left]; exact le_max_right _ _
  | cons x xs ih =>
    intro ys
    cases ys with
    | nil => rw [lev_cons_nil]; simp
    | cons y ys =>
      have h1 : lev (x :: xs) (y :: ys) ≤ lev xs ys + (if x = y then 0 else 1) := by
        rw [lev_cons_cons]
        exact le_trans (min_le_right _ _) (min_le_right _ _)
      have h2 := ih ys
      simp only [List.length_cons]
      split at h1 <;> omega

theorem dropWhile_head_false {p : Char → Bool} {l : List Char} {c : Char} {t : List Char}
    (h : l.dropWhile p = c :: t) : p c = false := by
  induction l with
  | nil => simp at h
  | cons a l ih =>
    rw [List.dropWhile_cons] at h
    by_cases hp : p a
    · rw [if_pos hp] at h; exact ih h
    · rw [if_neg hp] at h
      injection h with h1 h2
      subst h1
      simpa using hp

theorem trimRightChars_head {l : List Char} {c : Char} {t : List Char} :
    trimRightChars l = c :: t → ∃ t0, l = c :: t0 := by
  cases l with
  | nil => intro h; simp [trimRightChars] at h
  | cons a l =>
    intro h
    unfold trimRightChars at h
    cases htr : trimRightChars l with
    | nil =>
      rw [htr] at h
      by_cases hw : a.isWhitespace
      · simp [hw] at h
      · simp [hw] at h
        exact ⟨l, by rw [h.1]⟩
    | cons r rs =>
      rw [htr] at h
      injection h with h1 h2
      exact ⟨l, by rw [h1]⟩

theorem trimChars_head_not_ws {l : List Char} {c : Char} {t : List Char}
    (h : trimChars l = c :: t) : c.isWhitespace = false := by
  unfold trimChars at h
  obtain ⟨t0, h0⟩ := trimRightChars_head h
  exact dropWhile_head_false h0

theorem wordsOf_cons_ne_nil {c : Char} (t : List Char) (h : c.isWhitespace = false) :
    wordsOf (c :: t) ≠ [] := by
  rw [wordsOf_cons_nws t h]
  simp

theorem normalize_words_ne_nil {s : String} (h : normalize_title s ≠ "") :
    wordsOf (normalize_title s).data ≠ [] := by
  have hd : (normalize_title s).data ≠ [] := by
    intro hc
    apply h
    unfold normalize_title at hc ⊢
    rw [show ("" : String) = String.mk [] from rfl]
    exact congrArg String.mk hc
  cases hm : (normalize_title s).data with
  | nil => exact absurd hm hd
  | cons c t =>
    have hcw : c.isWhitespace = false := by
      apply trimChars_head_not_ws (l := joinWords (wordsOf ((s.data.filter keepChar).map Char.toLower)))
      have : (normalize_title s).data =
          trimChars (joinWords (wordsOf ((s.data.filter keepChar).map Char.toLower))) := rfl
      rw [← this, hm]
    exact wordsOf_cons_ne_nil t hcw

theorem tokensOf_card_ne_zero {s : String} (h : normalize_title s ≠ "") :
    (tokensOf (normalize_title s)).card ≠ 0 := by
  rw [tokensOf, Ne, Finset.card_eq_zero, List.toFinset_eq_empty_iff]
  exact normalize_words_ne_nil h

/-- The similarity score of a string with itself is exactly `1` whenever
the normalized title is non-empty. -/
theorem similarity_self (s : String) (h : normalize_title s ≠ "") :
    similarity_score s s = 1 := by
  unfold similarity_score
  simp only [Finset.union_self, Finset.inter_self, lev_self]
  rw [if_neg (tokensOf_card_ne_zero h)]
  have hc : ((tokensOf (normalize_title s)).card : ℚ) ≠ 0 := by
    exact_mod_cast tokensOf_card_ne_zero h
  rw [div_self hc]
  norm_num

theorem length_le_byteLen (s : String) : s.data.length ≤ byteLen s := by
  unfold byteLen
  induction s.data with
  | nil => simp
  | cons c l ih =>
    simp only [List.map_cons, List.sum_cons, List.length_cons]
    have : 0 < c.utf8Size := Char.utf8Size_pos c
    omega

theorem byteLen_pos {s : String} (h : s.data ≠ []) : 0 < byteLen s := by
  have h1 : 0 < s.data.length := List.length_pos.mpr h
  exact lt_of_lt_of_le h1 (length_le_byteLen s)

theorem lev_le_max_byteLen (s1 s2 : String) :
    lev s1.data s2.data ≤ max (byteLen s1) (byteLen s2) := by
  refine le_trans (lev_le_max s1.data s2.data) ?_
  exact max_le_max (length_le_byteLen s1) (length_le_byteLen s2)

theorem norm_words_nil_iff (s : String) :
    wordsOf (normalize_title s).data = [] ↔ (normalize_title s).data = [] := by
  constructor
  · intro h
    by_contra hne
    cases hm : (normalize_title s).data with
    | nil => exact hne hm
    | cons c t =>
      have hcw : c.isWhitespace = false := by
        apply trimChars_head_not_ws
          (l := joinWords (wordsOf ((s.data.filter keepChar).map Char.toLower)))
        have : (normalize_title s).data =
            trimChars (joinWords (wordsOf ((s.data.filter keepChar).map Char.toLower))) := rfl
        rw [← this, hm]
      rw [hm] at h
      exact wordsOf_cons_ne_nil t hcw h
  · intro h
    rw [h]
    exact wordsOf_nil

theorem tokensOf_norm_empty_iff (s : String) :
    tokensOf (normalize_title s) = ∅ ↔ (normalize_title s).data = [] := by
  rw [tokensOf, List.toFinset_eq_empty_iff, norm_words_nil_iff]

/-- `similarity_score` as the specification states it: `0.7` times the
Jaccard similarity of the distinct-token sets of the normalized titles
(`0` when the union is empty), plus `0.3` times one minus the Levenshtein
distance between the normalized strings divided by the maximum of their
lengths (Rust `String::len`, i.e. byte length; `0` when both normalized
strings are empty). -/
def specSimilarity (a b : String) : ℚ :=
  let n1 := normalize_title a
  let n2 := normalize_title b
  let t1 := tokensOf n1
  let t2 := tokensOf n2
  let jaccard : ℚ := if t1 ∪ t2 = ∅ then 0 else ((t1 ∩ t2).card : ℚ) / ((t1 ∪ t2).card : ℚ)
  let editSim : ℚ :=
    if n1.data = [] ∧ n2.data = [] then 0
    else 1 - ((lev n1.data n2.data : Nat) : ℚ) / ((max (byteLen n1) (byteLen n2) : Nat) : ℚ)
  7/10 * jaccard + 3/10 * editSim

theorem similarity_eq_spec (a b : String) : similarity_score a b = specSimilarity a b := by
  simp only [similarity_score, specSimilarity]
  by_cases h : (tokensOf (normalize_title a) ∪ tokensOf (normalize_title b)).card = 0
  · have hu : tokensOf (normalize_title a) ∪ tokensOf (normalize_title b) = ∅ :=
      Finset.card_eq_zero.mp h
    have h1 : tokensOf (normalize_title a) = ∅ := (Finset.union_eq_empty.mp hu).1
    have h2 : tokensOf (normalize_title b) = ∅ := (Finset.union_eq_empty.mp hu).2
    rw [if_pos h, if_pos hu,
      if_pos ⟨(tokensOf_norm_empty_iff a).mp h1, (tokensOf_norm_empty_iff b).mp h2⟩]
    norm_num
  · have hu : ¬(tokensOf (normalize_title a) ∪ tokensOf (normalize_title b) = ∅) := by
      intro hc
      rw [hc] at h
      simp at h
    have hne : ¬((normalize_title a).data = [] ∧ (normalize_title b).data = []) := by
      rintro ⟨ha, hb⟩
      apply hu
      rw [Finset.union_eq_empty]
      exact ⟨(tokensOf_norm_empty_iff a).mpr ha, (tokensOf_norm_empty_iff b).mpr hb⟩
    rw [if_neg h, if_neg hu, if_neg hne]

theorem similarity_score_nonneg (a b : String) : 0 ≤ similarity_score a b := by
  unfold similarity_score
  by_cases h : (tokensOf (normalize_title a) ∪ tokensOf (normalize_title b)).card = 0
  · rw [if_pos h]
  · rw [if_neg h]
    have hUpos : (0 : ℚ) < ((tokensOf (normalize_title a) ∪ tokensOf (normalize_title b)).card : ℚ) := by
      exact_mod_cast Nat.pos_of_ne_zero h
    have hj0 : (0 : ℚ) ≤
        ((tokensOf (normalize_title a) ∩ tokensOf (normalize_title b)).card : ℚ) /
          ((tokensOf (normalize_title a) ∪ tokensOf (normalize_title b)).card : ℚ) :=
      div_nonneg (by positivity) hUpos.le
    have hmax : 0 < max (byteLen (normalize_title a)) (byteLen (normalize_title b)) := by
      have hne : tokensOf (normalize_title a) ∪ tokensOf (normalize_title b) ≠ ∅ := by
        intro hc
        rw [hc] at h
        simp at h
      obtain ⟨w, hw⟩ := Finset.nonempty_iff_ne_empty.mpr hne
      rcases Finset.mem_union.mp hw with hw1 | hw1
      · have hd : (normalize_title a).data ≠ [] := by
          intro hc
          rw [(tokensOf_norm_empty_iff a).mpr hc] at hw1
          exact absurd hw1 (Finset.not_mem_empty w)
        exact lt_max_of_lt_left (byteLen_pos hd)
      · have hd : (normalize_title b).data ≠ [] := by
          intro hc
          rw [(tokensOf_norm_empty_iff b).mpr hc] at hw1
          exact absurd hw1 (Finset.not_mem_empty w)
        exact lt_max_of_lt_right (byteLen_pos hd)
    have hmaxQ : (0 : ℚ) < ((max (byteLen (normalize_title a)) (byteLen (normalize_title b)) : Nat) : ℚ) := by
      exact_mod_cast hmax
    have hlev : ((lev (normalize_title a).data (normalize_title b).data : Nat) : ℚ) ≤
        ((max (byteLen (normalize_title a)) (byteLen (normalize_title b)) : Nat) : ℚ) := by
      exact_mod_cast lev_le_max_byteLen (normalize_title a) (normalize_title b)
    have he0 : (0 : ℚ) ≤ 1 -
        ((lev (normalize_title a).data (normalize_title b).data : Nat) : ℚ) /
          ((max (byteLen (normalize_title a)) (byteLen (normalize_title b)) : Nat) : ℚ) := by
      have := (div_le_one hmaxQ).mpr hlev
      linarith
    positivity

theorem similarity_score_le_one (a b : String) : similarity_score a b ≤ 1 := by
  unfold similarity_score
  by_cases h : (tokensOf (normalize_title a) ∪ tokensOf (normalize_title b)).card = 0
  · rw [if_pos h]; norm_num
  · rw [if_neg h]
    have hUpos : (0 : ℚ) < ((tokensOf (normalize_title a) ∪ tokensOf (normalize_title b)).card : ℚ) := by
      exact_mod_cast Nat.pos_of_ne_zero h
    have hj1 : ((tokensOf (normalize_title a) ∩ tokensOf (normalize_title b)).card : ℚ) /
        ((tokensOf (normalize_title a) ∪ tokensOf (normalize_title b)).card : ℚ) ≤ 1 := by
      rw [div_le_one hUpos]
      exact_mod_cast Finset.card_le_card (Finset.inter_subset_union)
    have he1 : 1 - ((lev (normalize_title a).data (normalize_title b).data : Nat) : ℚ) /
        ((max (byteLen (normalize_title a)) (byteLen (normalize_title b)) : Nat) : ℚ) ≤ 1 := by
      have : (0 : ℚ) ≤ ((lev (normalize_title a).data (normalize_title b).data : Nat) : ℚ) /
          ((max (byteLen (normalize_title a)) (byteLen (normalize_title b)) : Nat) : ℚ) := by
        positivity
      linarith
    linarith

/-- The collapsing pass described by the specification of the Text
Normalizer: every maximal run of whitespace becomes a single space,
other characters are kept. -/
def collapseWs : List Char → List Char
  | [] => []
  | [c] => [if c.isWhitespace then ' ' else c]
  | c :: d :: ds =>
    if c.isWhitespace && d.isWhitespace then collapseWs (d :: ds)
    else (if c.isWhitespace then ' ' else c) :: collapseWs (d :: ds)

/-- The Text Normalizer exactly as the claim words it: remove every
character that is neither alphanumeric nor whitespace, lowercase,
collapse every whitespace run to a single space, trim both ends. -/
def claimNormalize (s : String) : String :=
  String.mk (trimChars (collapseWs
    ((s.data.filter (fun c => c.isAlphanum || c.isWhitespace)).map Char.toLower)))

/-- The Text Normalizer with the character class corrected to the word
characters actually kept by the code's regex (alphanumeric or
underscore): remove every other non-whitespace character, lowercase,
collapse every whitespace run to a single space, trim both ends. -/
def specNormalize (s : String) : String :=
  String.mk (trimChars (collapseWs ((s.data.filter keepChar).map Char.toLower)))

theorem joinWords_cons2 (w w2 : List Char) (ws : List (List Char)) :
    joinWords (w :: w2 :: ws) = w ++ ' ' :: joinWords (w2 :: ws) := rfl

theorem collapseWs_cons_nws {c : Char} (cs : List Char) (h : c.isWhitespace = false) :
    collapseWs (c :: cs) = c :: collapseWs cs := by
  cases cs with
  | nil => simp [collapseWs, h]
  | cons d ds => simp [collapseWs, h]

theorem collapseWs_cons_ws_ws {c d : Char} (ds : List Char)
    (hc : c.isWhitespace = true) (hd : d.isWhitespace = true) :
    collapseWs (c :: d :: ds) = collapseWs (d :: ds) := by
  simp [collapseWs, hc, hd]

theorem collapseWs_cons_ws_nws {c d : Char} (ds : List Char)
    (hc : c.isWhitespace = true) (hd : d.isWhitespace = false) :
    collapseWs (c :: d :: ds) = ' ' :: collapseWs (d :: ds) := by
  simp [collapseWs, hc, hd]

theorem collapseWs_all_ws :
    ∀ l : List Char, l ≠ [] → (∀ c ∈ l, c.isWhitespace = true) → collapseWs l = [' '] := by
  intro l
  induction l with
  | nil => intro h; exact absurd rfl h
  | cons c cs ih =>
    intro _ hall
    cases cs with
    | nil => simp [collapseWs, hall c (List.mem_cons_self c [])]
    | cons d ds =>
      rw [collapseWs_cons_ws_ws ds (hall c (List.mem_cons_self c _))
        (hall d (List.mem_cons_of_mem c (List.mem_cons_self d _)))]
      exact ih (by simp) (fun x hx => hall x (List.mem_cons_of_mem c hx))

theorem collapseWs_word_append (w rest : List Char)
    (hw : ∀ c ∈ w, c.isWhitespace = false) :
    collapseWs (w ++ rest) = w ++ collapseWs rest := by
  induction w with
  | nil => rfl
  | cons a w ih =>
    rw [List.cons_append, collapseWs_cons_nws _ (hw a (List.mem_cons_self a _))]
    rw [ih (fun c hc => hw c (List.mem_cons_of_mem a hc))]
    rfl

theorem collapseWs_wsrun_append :
    ∀ run : List Char, run ≠ [] → (∀ c ∈ run, c.isWhitespace = true) →
      ∀ (r : Char) (rs : List Char), r.isWhitespace = false →
        collapseWs (run ++ r :: rs) = ' ' :: collapseWs (r :: rs) := by
  intro run
  induction run with
  | nil => intro h; exact absurd rfl h
  | cons a run ih =>
    intro _ hall r rs hr
    cases run with
    | nil =>
      rw [List.cons_append, List.nil_append,
        collapseWs_cons_ws_nws rs (hall a (List.mem_cons_self a _)) hr]
    | cons b run2 =>
      rw [List.cons_append, List.cons_append,
        collapseWs_cons_ws_ws _ (hall a (List.mem_cons_self a _))
          (hall b (List.mem_cons_of_mem a (List.mem_cons_self b _))),
        ← List.cons_append]
      exact ih (by simp) (fun x hx => hall x (List.mem_cons_of_mem a hx)) r rs hr

theorem trimChars_cons_space (x : List Char) : trimChars (' ' :: x) = trimChars x := by
  unfold trimChars
  rw [List.dropWhile_cons, if_pos (by decide)]

theorem trimRightChars_cons_eq (c : Char) (cs : List Char) :
    trimRightChars (c :: cs) =
      match trimRightChars cs with
      | [] => if c.isWhitespace then [] else [c]
      | r => c :: r := rfl

theorem trimRightChars_word_append (w x : List Char)
    (hw : ∀ c ∈ w, c.isWhitespace = false) :
    trimRightChars (w ++ x) = w ++ trimRightChars x := by
  induction w with
  | nil => rfl
  | cons a w ih =>
    have ha : a.isWhitespace = false := hw a (List.mem_cons_self a _)
    rw [List.cons_append, trimRightChars_cons_eq,
      ih (fun c hc => hw c (List.mem_cons_of_mem a hc))]
    cases hwx : w ++ trimRightChars x with
    | nil => simp [ha, List.append_eq_nil.mp hwx]
    | cons y ys => rw [List.cons_append, hwx]

theorem trimRightChars_cons_of_ne (c : Char) (x : List Char)
    (h : trimRightChars x ≠ []) : trimRightChars (c :: x) = c :: trimRightChars x := by
  rw [trimRightChars_cons_eq]
  cases hx : trimRightChars x with
  | nil => exact absurd hx h
  | cons y ys => rfl

theorem trimRightChars_ne_nil_of_head {r : Char} (z : List Char)
    (hr : r.isWhitespace = false) : trimRightChars (r :: z) ≠ [] := by
  rw [trimRightChars_cons_eq]
  cases hz : trimRightChars z with
  | nil => simp [hr]
  | cons y ys => simp

theorem dropWhile_ws_cons_nws {c : Char} (x : List Char) (h : c.isWhitespace = false) :
    (c :: x).dropWhile Char.isWhitespace = c :: x := by
  rw [List.dropWhile_cons, if_neg (by simp [h])]

theorem trimChars_cons_nws {c : Char} (x : List Char) (h : c.isWhitespace = false) :
    trimChars (c :: x) = trimRightChars (c :: x) := by
  unfold trimChars
  rw [dropWhile_ws_cons_nws x h]

theorem wordsOf_nil_all_ws :
    ∀ l : List Char, wordsOf l = [] → ∀ c ∈ l, c.isWhitespace = true := by
  intro l
  induction l with
  | nil => intro _ c hc; simp at hc
  | cons a cs ih =>
    intro h c hc
    by_cases ha : a.isWhitespace
    · rw [wordsOf_cons_ws cs (by simpa using ha)] at h
      rcases List.mem_cons.mp hc with rfl | hc2
      · simpa using ha
      · exact ih h c hc2
    · rw [wordsOf_cons_nws cs (by simpa using ha)] at h
      simp at h

theorem trim_collapse_aux :
    ∀ n : Nat, ∀ l : List Char, l.length ≤ n →
      (trimChars (collapseWs l) = joinWords (wordsOf l)) ∧
      (∀ g gs, l = g :: gs → g.isWhitespace = true → wordsOf l ≠ [] →
        trimRightChars (collapseWs l) = ' ' :: joinWords (wordsOf l)) := by
  intro n
  induction n with
  | zero =>
    intro l hl
    have hl0 : l = [] := List.length_eq_zero.mp (Nat.le_zero.mp hl)
    subst hl0
    refine ⟨by rw [wordsOf_nil]; rfl, ?_⟩
    intro g gs hg
    exact absurd hg (by simp)
  | succ n ih =>
    intro l hl
    cases l with
    | nil =>
      refine ⟨by rw [wordsOf_nil]; rfl, ?_⟩
      intro g gs hg
      exact absurd hg (by simp)
    | cons c cs =>
      have hcs : cs.length ≤ n := by
        simp only [List.length_cons] at hl
        omega
      constructor
      · cases hc : c.isWhitespace with
        | true =>
          rw [wordsOf_cons_ws cs hc]
          cases cs with
          | nil =>
            have h1 : collapseWs [c] = [' '] := by simp [collapseWs, hc]
            rw [h1, wordsOf_nil]
            decide
          | cons d ds =>
            cases hd : d.isWhitespace with
            | true =>
              rw [collapseWs_cons_ws_ws ds hc hd]
              exact (ih (d :: ds) hcs).1
            | false =>
              rw [collapseWs_cons_ws_nws ds hc hd, trimChars_cons_space]
              exact (ih (d :: ds) hcs).1
        | false =>
          rw [wordsOf_cons_nws cs hc]
          have hsplit : c :: cs =
              (c :: cs.takeWhile (fun d => !d.isWhitespace)) ++
                cs.dropWhile (fun d => !d.isWhitespace) := by
            rw [List.cons_append, List.takeWhile_append_dropWhile]
          have hwAll : ∀ x ∈ c :: cs.takeWhile (fun d => !d.isWhitespace),
              x.isWhitespace = false := by
            intro x hx
            rcases List.mem_cons.mp hx with rfl | hx2
            · exact hc
            · have := List.mem_takeWhile_imp hx2
              simpa using this
          rw [hsplit, collapseWs_word_append _ _ hwAll, List.cons_append,
            trimChars_cons_nws _ hc, ← List.cons_append,
            trimRightChars_word_append _ _ hwAll]
          by_cases hw0 : wordsOf (cs.dropWhile (fun d => !d.isWhitespace)) = []
          · rw [hw0]
            have hall := wordsOf_nil_all_ws _ hw0
            by_cases hdr : cs.dropWhile (fun d => !d.isWhitespace) = []
            · rw [hdr]
              simp [collapseWs, trimRightChars, joinWords]
            · rw [collapseWs_all_ws _ hdr hall,
                show trimRightChars [' '] = [] from by decide, List.append_nil]
              rfl
          · obtain ⟨w, ws2, hw⟩ := List.exists_cons_of_ne_nil hw0
            obtain ⟨e, es, hdr⟩ :
                ∃ e es, cs.dropWhile (fun d => !d.isWhitespace) = e :: es := by
              cases hdr0 : cs.dropWhile (fun d => !d.isWhitespace) with
              | nil => rw [hdr0, wordsOf_nil] at hw0; exact absurd rfl hw0
              | cons e es => exact ⟨e, es, rfl⟩
            have he : e.isWhitespace = true := by
              have h0 := dropWhile_head_false (p := fun d => !d.isWhitespace) hdr
              simpa using h0
            have hlen : (cs.dropWhile (fun d => !d.isWhitespace)).length ≤ n :=
              le_trans (List.dropWhile_suffix _).length_le hcs
            have h2 := (ih _ hlen).2 e es hdr he hw0
            rw [hw] at h2 ⊢
            rw [joinWords_cons2, h2]
      · intro g gs hg hgw hwne
        have hc : c.isWhitespace = true := by
          injection hg with e1 e2
          rw [e1]
          exact hgw
        cases cs with
        | nil =>
          rw [wordsOf_cons_ws _ hc, wordsOf_nil] at hwne
          exact absurd rfl hwne
        | cons d ds =>
          cases hd : d.isWhitespace with
          | true =>
            rw [collapseWs_cons_ws_ws ds hc hd, wordsOf_cons_ws _ hc]
            rw [wordsOf_cons_ws _ hc] at hwne
            exact (ih (d :: ds) hcs).2 d ds rfl hd hwne
          | false =>
            rw [collapseWs_cons_ws_nws ds hc hd]
            have hcol : collapseWs (d :: ds) = d :: collapseWs ds := collapseWs_cons_nws ds hd
            have hne2 : trimRightChars (collapseWs (d :: ds)) ≠ [] := by
              rw [hcol]
              exact trimRightChars_ne_nil_of_head _ hd
            rw [trimRightChars_cons_of_ne _ _ hne2]
            have h1 := (ih (d :: ds) hcs).1
            have h1x : trimChars (collapseWs (d :: ds)) = trimRightChars (collapseWs (d :: ds)) := by
              rw [hcol]
              exact trimChars_cons_nws _ hd
            rw [← h1x, h1, wordsOf_cons_ws _ hc]

/-- Collapsing whitespace runs and trimming produces the same string as
splitting on whitespace and joining with single spaces. -/
theorem trimChars_collapseWs (l : List Char) :
    trimChars (collapseWs l) = joinWords (wordsOf l) :=
  (trim_collapse_aux l.length l le_rfl).1

theorem dropWhile_ws_noop {x : List Char}
    (h : ∀ c t, x = c :: t → c.isWhitespace = false) :
    x.dropWhile Char.isWhitespace = x := by
  cases x with
  | nil => rfl
  | cons c t => rw [List.dropWhile_cons, if_neg (by simp [h c t rfl])]

theorem trimRightChars_idem : ∀ x : List Char,
    trimRightChars (trimRightChars x) = trimRightChars x := by
  intro x
  induction x with
  | nil => rfl
  | cons c cs ih =>
    cases h : trimRightChars cs with
    | nil =>
      rw [trimRightChars_cons_eq, h]
      cases hw : c.isWhitespace with
      | true => simp [hw, trimRightChars]
      | false => simp [hw, trimRightChars]
    | cons y ys =>
      have hne : trimRightChars cs ≠ [] := by rw [h]; simp
      rw [trimRightChars_cons_of_ne c cs hne,
        trimRightChars_cons_of_ne c _ (by rw [ih]; exact hne), ih]

theorem trimChars_idem (l : List Char) : trimChars (trimChars l) = trimChars l := by
  have hnoop : (trimRightChars (l.dropWhile Char.isWhitespace)).dropWhile Char.isWhitespace =
      trimRightChars (l.dropWhile Char.isWhitespace) := by
    apply dropWhile_ws_noop
    intro c t hct
    obtain ⟨t0, h0⟩ := trimRightChars_head hct
    exact dropWhile_head_false h0
  unfold trimChars
  rw [hnoop, trimRightChars_idem]

theorem normalize_eq_specNormalize (s : String) : normalize_title s = specNormalize s := by
  unfold normalize_title specNormalize
  congr 1
  rw [← trimChars_collapseWs, trimChars_idem]

theorem withAuthors_publications (p : Paper) (as : List String) :
    (withAuthors p as).1.publications = p.publications := by
  unfold withAuthors
  split <;> rfl

theorem withAuthors_authors_eq (p : Paper) (as : List String) (s : String)
    (h : p.authors = some s) : withAuthors p as = (p, []) := by
  unfold withAuthors
  rw [if_neg]
  simp [h]

theorem withAuthors_of_none (p : Paper) (as : List String)
    (h1 : p.authors = none) (h2 : as ≠ []) :
    withAuthors p as =
      ({ p with authors := some (extract_authors_last_names (joinSep ", " as)) },
        [Event.authorsUpdated]) := by
  unfold withAuthors
  rw [if_pos ⟨h1, h2⟩]

theorem withAuthors_events (p : Paper) (as : List String) :
    (withAuthors p as).2 = [] ∨ (withAuthors p as).2 = [Event.authorsUpdated] := by
  unfold withAuthors
  split
  · right; rfl
  · left; rfl

theorem updateFirst_map_name (pred : Publication → Bool) (f : Publication → Publication)
    (hf : ∀ q, pred q = true → (f q).name = q.name) :
    ∀ l : List Publication, (updateFirst pred f l).map Publication.name = l.map Publication.name := by
  intro l
  induction l with
  | nil => rfl
  | cons p ps ih =>
    show (if pred p then f p :: ps else p :: updateFirst pred f ps).map _ = _
    by_cases hp : pred p
    · simp [hp, hf p hp]
    · simp only [if_neg hp, List.map_cons, ih]

theorem updateFirst_mem (pred : Publication → Bool) (f : Publication → Publication) :
    ∀ (l : List Publication) (q' : Publication), q' ∈ updateFirst pred f l →
      q' ∈ l ∨ ∃ q ∈ l, pred q = true ∧ q' = f q := by
  intro l
  induction l with
  | nil => intro q' h; simp [updateFirst] at h
  | cons p ps ih =>
    intro q' h
    rw [show updateFirst pred f (p :: ps) =
      if pred p then f p :: ps else p :: updateFirst pred f ps from rfl] at h
    by_cases hp : pred p
    · rw [if_pos hp] at h
      rcases List.mem_cons.mp h with rfl | h2
      · exact Or.inr ⟨p, List.mem_cons_self p ps, hp, rfl⟩
      · exact Or.inl (List.mem_cons_of_mem p h2)
    · rw [if_neg hp] at h
      rcases List.mem_cons.mp h with rfl | h2
      · exact Or.inl (List.mem_cons_self q' ps)
      · rcases ih q' h2 with h3 | ⟨q, hq, hpq, hfq⟩
        · exact Or.inl (List.mem_cons_of_mem p h3)
        · exact Or.inr ⟨q, List.mem_cons_of_mem p hq, hpq, hfq⟩

/-- Every Publication whose venue name equals "arXiv" case-insensitively
is named exactly "arXiv" (the spelling the arXiv path looks up). -/
def arxivNameOk (p : Paper) : Prop :=
  ∀ q ∈ p.publications, lowerStr q.name = "arxiv" → q.name = "arXiv"

instance (p : Paper) : Decidable (arxivNameOk p) := by
  unfold arxivNameOk
  infer_instance

theorem lowerStr_arXiv : lowerStr "arXiv" = "arxiv" := by decide

/-- The venue-lookup predicate of the DBLP merge. -/
def venuePred (venue : String) (q : Publication) : Bool :=
  lowerStr q.name == lowerStr venue

/-- The field-filling function of the DBLP merge. -/
def dblpFill (h : DblpHit) (q : Publication) : Publication :=
  { q with dblp_key := fillField q.dblp_key h.key,
           bibtex := fillField q.bibtex (bibtexVal h),
           url := fillField q.url h.ee }

/-- The "at least one field was filled" flag of the DBLP merge
(`pub_updated` in main_improved.rs). -/
def dblpChanged (h : DblpHit) (old : Publication) : Bool :=
  (old.dblp_key.isNone && h.key.isSome) || (old.bibtex.isNone && (bibtexVal h).isSome) ||
    (old.url.isNone && h.ee.isSome)

/-- The Publication appended by the DBLP merge when no venue matches. -/
def dblpNewPub (h : DblpHit) : Publication :=
  { name := h.venue.getD "", url := h.ee, year := h.year.bind (fun y => rustParseI32 y),
    month := none, day := none, dblp_key := h.key, bibtex := bibtexVal h }

theorem dblpMergeHit_eq_found (p : Paper) (h : DblpHit) (old : Publication)
    (hfind : p.publications.find? (venuePred (h.venue.getD "")) = some old) :
    dblpMergeHit p h =
      ({ (withAuthors p h.authors).1 with publications :=
          (updateFirst (venuePred (h.venue.getD "")) (dblpFill h) p.publications) },
       (withAuthors p h.authors).2 ++
         (if dblpChanged h old then [Event.pubUpdated] else [])) := by
  unfold venuePred at hfind
  simp only [dblpMergeHit, withAuthors_publications, hfind]
  unfold venuePred dblpFill dblpChanged
  rfl

theorem dblpMergeHit_eq_notfound (p : Paper) (h : DblpHit)
    (hfind : p.publications.find? (venuePred (h.venue.getD "")) = none) :
    dblpMergeHit p h =
      ({ (withAuthors p h.authors).1 with publications := p.publications ++ [dblpNewPub h] },
       (withAuthors p h.authors).2 ++ [Event.newPublication]) := by
  unfold venuePred at hfind
  simp only [dblpMergeHit, withAuthors_publications, hfind]
  unfold dblpNewPub
  rfl

/-- The lookup predicate of the arXiv merge (exact name match). -/
def arxivPred (q : Publication) : Bool := q.name == "arXiv"

/-- The fresh Publication built by the arXiv merge. -/
def arxivFresh (d : PDate) (id : String) : Publication :=
  { name := "arXiv", url := some (cleanUrl id), year := some d.year,
    month := some d.month, day := some d.day, dblp_key := none, bibtex := none }

theorem arxivMergeEntry_eq_nodate (p : Paper) (e : ArxivEntry)
    (hd : e.published = none ∨ e.idUrl = none) :
    arxivMergeEntry p e = withAuthors p e.authors := by
  unfold arxivMergeEntry
  rcases hd with hd | hd
  · rw [hd]
  · rw [hd]
    cases e.published <;> rfl

theorem arxivMergeEntry_eq_found (p : Paper) (e : ArxivEntry) (d : PDate) (id : String)
    (hp : e.published = some d) (hi : e.idUrl = some id) (old : Publication)
    (hfind : p.publications.find? arxivPred = some old) :
    arxivMergeEntry p e =
      ({ (withAuthors p e.authors).1 with publications :=
          (updateFirst arxivPred (fun _ => arxivFresh d id) p.publications) },
       (withAuthors p e.authors).2 ++
         (if old.url = some (cleanUrl id) then [] else [Event.pubUpdated])) := by
  unfold arxivPred at hfind
  simp only [arxivMergeEntry, withAuthors_publications, hp, hi, hfind]
  unfold arxivPred arxivFresh
  rfl

theorem arxivMergeEntry_eq_notfound (p : Paper) (e : ArxivEntry) (d : PDate) (id : String)
    (hp : e.published = some d) (hi : e.idUrl = some id)
    (hfind : p.publications.find? arxivPred = none) :
    arxivMergeEntry p e =
      ({ (withAuthors p e.authors).1 with publications :=
          (p.publications ++ [arxivFresh d id]) },
       (withAuthors p e.authors).2 ++ [Event.newPublication]) := by
  unfold arxivPred at hfind
  simp only [arxivMergeEntry, withAuthors_publications, hp, hi, hfind]
  unfold arxivFresh
  rfl

theorem uniqueVenues_of_updateFirst (pred : Publication → Bool) (f : Publication → Publication)
    (hf : ∀ q, pred q = true → (f q).name = q.name) (pubs : List Publication)
    (h1 : (pubs.map (fun q => lowerStr q.name)).Nodup) :
    ((updateFirst pred f pubs).map (fun q => lowerStr q.name)).Nodup := by
  have hmap : (updateFirst pred f pubs).map (fun q => lowerStr q.name) =
      pubs.map (fun q => lowerStr q.name) := by
    have h2 := updateFirst_map_name pred f hf pubs
    calc (updateFirst pred f pubs).map (fun q => lowerStr q.name)
        = ((updateFirst pred f pubs).map Publication.name).map lowerStr := by
          rw [List.map_map]; rfl
      _ = (pubs.map Publication.name).map lowerStr := by rw [h2]
      _ = pubs.map (fun q => lowerStr q.name) := by rw [List.map_map]; rfl
  rw [hmap]
  exact h1

theorem uniqueVenues_of_append (pubs : List Publication) (newPub : Publication)
    (h1 : (pubs.map (fun q => lowerStr q.name)).Nodup)
    (h2 : ∀ q ∈ pubs, lowerStr q.name ≠ lowerStr newPub.name) :
    ((pubs ++ [newPub]).map (fun q => lowerStr q.name)).Nodup := by
  rw [List.map_append, List.nodup_append]
  refine ⟨h1, List.nodup_singleton _, ?_⟩
  intro x hx hx2
  simp only [List.map_cons, List.map_nil, List.mem_singleton] at hx2
  rcases List.mem_map.mp hx with ⟨q, hq, hqx⟩
  exact h2 q hq (by rw [hqx, hx2])

theorem dblpMergeHit_inv (p : Paper) (h : DblpHit)
    (hv : lowerStr (h.venue.getD "") = "arxiv" → h.venue.getD "" = "arXiv")
    (h1 : uniqueVenues p) (h2 : arxivNameOk p) :
    uniqueVenues (dblpMergeHit p h).1 ∧ arxivNameOk (dblpMergeHit p h).1 := by
  cases hfind : p.publications.find? (venuePred (h.venue.getD "")) with
  | some old =>
    rw [dblpMergeHit_eq_found p h old hfind]
    constructor
    · unfold uniqueVenues
      exact uniqueVenues_of_updateFirst (venuePred (h.venue.getD "")) (dblpFill h)
        (fun q _ => rfl) p.publications h1
    · intro q' hq' hlow
      rcases updateFirst_mem _ _ p.publications q' hq' with hmem | ⟨q, hq, _, hfq⟩
      · exact h2 q' hmem hlow
      · have hname : q'.name = q.name := by rw [hfq]; rfl
        rw [hname]
        exact h2 q hq (by rw [← hname]; exact hlow)
  | none =>
    rw [dblpMergeHit_eq_notfound p h hfind]
    have hnone := List.find?_eq_none.mp hfind
    constructor
    · unfold uniqueVenues
      apply uniqueVenues_of_append p.publications (dblpNewPub h) h1
      intro q hq hlow
      apply hnone q hq
      unfold venuePred
      rw [beq_iff_eq]
      exact hlow
    · intro q' hq' hlow
      rcases List.mem_append.mp hq' with hmem | hmem
      · exact h2 q' hmem hlow
      · rw [List.mem_singleton.mp hmem] at hlow ⊢
        exact hv hlow

theorem arxivMergeEntry_inv (p : Paper) (e : ArxivEntry)
    (h1 : uniqueVenues p) (h2 : arxivNameOk p) :
    uniqueVenues (arxivMergeEntry p e).1 ∧ arxivNameOk (arxivMergeEntry p e).1 := by
  cases hp : e.published with
  | none =>
    rw [arxivMergeEntry_eq_nodate p e (Or.inl hp)]
    exact ⟨by unfold uniqueVenues; rw [withAuthors_publications]; exact h1,
      by unfold arxivNameOk; rw [withAuthors_publications]; exact h2⟩
  | some d =>
    cases hi : e.idUrl with
    | none =>
      rw [arxivMergeEntry_eq_nodate p e (Or.inr hi)]
      exact ⟨by unfold uniqueVenues; rw [withAuthors_publications]; exact h1,
        by unfold arxivNameOk; rw [withAuthors_publications]; exact h2⟩
    | some id =>
      cases hfind : p.publications.find? arxivPred with
      | some old =>
        rw [arxivMergeEntry_eq_found p e d id hp hi old hfind]
        constructor
        · unfold uniqueVenues
          apply uniqueVenues_of_updateFirst arxivPred (fun _ => arxivFresh d id) ?_ p.publications h1
          intro q hq
          unfold arxivPred at hq
          rw [beq_iff_eq] at hq
          rw [hq]
          rfl
        · intro q' hq' hlow
          rcases updateFirst_mem _ _ p.publications q' hq' with hmem | ⟨q, hq, _, hfq⟩
          · exact h2 q' hmem hlow
          · rw [hfq]
            rfl
      | none =>
        rw [arxivMergeEntry_eq_notfound p e d id hp hi hfind]
        have hnone := List.find?_eq_none.mp hfind
        constructor
        · unfold uniqueVenues
          apply uniqueVenues_of_append p.publications (arxivFresh d id) h1
          intro q hq hlow
          have hq2 : q.name = "arXiv" := h2 q hq (by
            rw [show (arxivFresh d id).name = "arXiv" from rfl, lowerStr_arXiv] at hlow
            exact hlow)
          apply hnone q hq
          unfold arxivPred
          rw [beq_iff_eq]
          exact hq2
        · intro q' hq' hlow
          rcases List.mem_append.mp hq' with hmem | hmem
          · exact h2 q' hmem hlow
          · rw [List.mem_singleton.mp hmem]
            rfl

theorem update_arxiv_nil (p : Paper) (th : ℚ) : update_paper_from_arxiv p th [] = (p, []) := rfl

theorem update_arxiv_cons_hit (p : Paper) (th : ℚ) (e : ArxivEntry) (es : List ArxivEntry)
    (hq : th ≤ similarity_score (e.title.getD "") p.title) :
    update_paper_from_arxiv p th (e :: es) = arxivMergeEntry p e := by
  show (if th ≤ similarity_score (e.title.getD "") p.title then arxivMergeEntry p e
    else update_paper_from_arxiv p th es) = arxivMergeEntry p e
  rw [if_pos hq]

theorem update_arxiv_cons_miss (p : Paper) (th : ℚ) (e : ArxivEntry) (es : List ArxivEntry)
    (hq : ¬ th ≤ similarity_score (e.title.getD "") p.title) :
    update_paper_from_arxiv p th (e :: es) = update_paper_from_arxiv p th es := by
  show (if th ≤ similarity_score (e.title.getD "") p.title then arxivMergeEntry p e
    else update_paper_from_arxiv p th es) = update_paper_from_arxiv p th es
  rw [if_neg hq]

theorem update_dblp_nil (p : Paper) (th : ℚ) : update_paper_from_dblp p th [] = (p, []) := rfl

theorem update_dblp_cons_miss (p : Paper) (th : ℚ) (h : DblpHit) (hs : List DblpHit)
    (hq : ¬ th ≤ similarity_score (h.title.getD "") p.title) :
    update_paper_from_dblp p th (h :: hs) = update_paper_from_dblp p th hs := by
  show (if th ≤ similarity_score (h.title.getD "") p.title then
      if h.venue.getD "" = "CoRR" ∨ h.venue.getD "" = "" then update_paper_from_dblp p th hs
      else dblpMergeHit p h
    else update_paper_from_dblp p th hs) = update_paper_from_dblp p th hs
  rw [if_neg hq]

theorem update_dblp_cons_skip (p : Paper) (th : ℚ) (h : DblpHit) (hs : List DblpHit)
    (hv : h.venue.getD "" = "CoRR" ∨ h.venue.getD "" = "") :
    update_paper_from_dblp p th (h :: hs) = update_paper_from_dblp p th hs := by
  show (if th ≤ similarity_score (h.title.getD "") p.title then
      if h.venue.getD "" = "CoRR" ∨ h.venue.getD "" = "" then update_paper_from_dblp p th hs
      else dblpMergeHit p h
    else update_paper_from_dblp p th hs) = update_paper_from_dblp p th hs
  rw [if_pos hv]
  split <;> rfl

theorem update_dblp_cons_merge (p : Paper) (th : ℚ) (h : DblpHit) (hs : List DblpHit)
    (hq : th ≤ similarity_score (h.title.getD "") p.title)
    (hv1 : h.venue.getD "" ≠ "CoRR") (hv2 : h.venue.getD "" ≠ "") :
    update_paper_from_dblp p th (h :: hs) = dblpMergeHit p h := by
  show (if th ≤ similarity_score (h.title.getD "") p.title then
      if h.venue.getD "" = "CoRR" ∨ h.venue.getD "" = "" then update_paper_from_dblp p th hs
      else dblpMergeHit p h
    else update_paper_from_dblp p th hs) = dblpMergeHit p h
  rw [if_pos hq, if_neg (by rintro (hc | hc) <;> [exact hv1 hc; exact hv2 hc])]

theorem update_arxiv_inv (p : Paper) (th : ℚ) (es : List ArxivEntry)
    (h1 : uniqueVenues p) (h2 : arxivNameOk p) :
    uniqueVenues (update_paper_from_arxiv p th es).1 ∧
      arxivNameOk (update_paper_from_arxiv p th es).1 := by
  induction es with
  | nil => exact ⟨h1, h2⟩
  | cons e es ih =>
    by_cases hq : th ≤ similarity_score (e.title.getD "") p.title
    · rw [update_arxiv_cons_hit p th e es hq]
      exact arxivMergeEntry_inv p e h1 h2
    · rw [update_arxiv_cons_miss p th e es hq]
      exact ih

theorem update_dblp_inv (p : Paper) (th : ℚ) (hs : List DblpHit)
    (hv : ∀ h ∈ hs, lowerStr (h.venue.getD "") = "arxiv" → h.venue.getD "" = "arXiv")
    (h1 : uniqueVenues p) (h2 : arxivNameOk p) :
    uniqueVenues (update_paper_from_dblp p th hs).1 ∧
      arxivNameOk (update_paper_from_dblp p th hs).1 := by
  induction hs with
  | nil => exact ⟨h1, h2⟩
  | cons h hs ih =>
    have ih2 := ih (fun x hx => hv x (List.mem_cons_of_mem h hx))
    by_cases hq : th ≤ similarity_score (h.title.getD "") p.title
    · by_cases hcorr : h.venue.getD "" = "CoRR" ∨ h.venue.getD "" = ""
      · rw [update_dblp_cons_skip p th h hs hcorr]
        exact ih2
      · push_neg at hcorr
        rw [update_dblp_cons_merge p th h hs hq hcorr.1 hcorr.2]
        exact dblpMergeHit_inv p h (hv h (List.mem_cons_self h hs)) h1 h2
    · rw [update_dblp_cons_miss p th h hs hq]
      exact ih2

/-- The side condition under which one reconciliation preserves the
exact-"arXiv" spelling discipline: indexed-venue candidates may not
introduce a venue that collides with "arXiv" case-insensitively under a
different spelling. -/
def stepVenuesOk : RecStep → Prop
  | RecStep.arxiv _ _ => True
  | RecStep.dblp _ hs => ∀ h ∈ hs, lowerStr (h.venue.getD "") = "arxiv" → h.venue.getD "" = "arXiv"

instance (s : RecStep) : Decidable (stepVenuesOk s) := by
  cases s with
  | arxiv th es => exact isTrue trivial
  | dblp th hs => unfold stepVenuesOk; infer_instance

theorem applyStep_inv (p : Paper) (s : RecStep) (hs : stepVenuesOk s)
    (h1 : uniqueVenues p) (h2 : arxivNameOk p) :
    uniqueVenues (applyStep p s) ∧ arxivNameOk (applyStep p s) := by
  cases s with
  | arxiv th es => exact update_arxiv_inv p th es h1 h2
  | dblp th hs2 => exact update_dblp_inv p th hs2 hs h1 h2

theorem applySteps_inv : ∀ (steps : List RecStep) (p : Paper),
    (∀ s ∈ steps, stepVenuesOk s) → uniqueVenues p → arxivNameOk p →
    uniqueVenues (applySteps p steps) ∧ arxivNameOk (applySteps p steps) := by
  intro steps
  induction steps with
  | nil => intro p _ h1 h2; exact ⟨h1, h2⟩
  | cons s steps ih =>
    intro p h3 h1 h2
    have hstep := applyStep_inv p s (h3 s (List.mem_cons_self s steps)) h1 h2
    exact ih (applyStep p s) (fun x hx => h3 x (List.mem_cons_of_mem s hx)) hstep.1 hstep.2

/-- A record that satisfies the uniqueness invariant but names its arXiv
entry "ARXIV" rather than "arXiv". -/
def cexPaper : Paper :=
  { title := "t", authors := some "a", labels := [],
    publications := [⟨"ARXIV", none, none, none, none, none, none⟩] }

/-- A qualifying arXiv candidate with a parsed date and an id. -/
def cexEntry : ArxivEntry :=
  { title := some "t", authors := [],
    published := some ⟨2020, 1, 1⟩, idUrl := some "http://x" }

/-- C1 (counterexample): the claim as stated is false. A record whose only
publication is named "ARXIV" satisfies the case-insensitive uniqueness
invariant, yet one arXiv-path reconciliation with a qualifying candidate
appends a second publication named "arXiv" (the exact-spelling lookup
`p.name == "arXiv"` misses "ARXIV"), leaving two publications whose names
are equal case-insensitively. -/
theorem C1_counterexample :
    uniqueVenues cexPaper ∧
      ¬ uniqueVenues (applySteps cexPaper [RecStep.arxiv 1 [cexEntry]]) := by
  constructor
  · decide
  · have hs : similarity_score "t" "t" = 1 := similarity_self "t" (by decide)
    have h2 : update_paper_from_arxiv cexPaper 1 [cexEntry] = arxivMergeEntry cexPaper cexEntry :=
      update_arxiv_cons_hit cexPaper 1 cexEntry []
        (by rw [show cexEntry.title.getD "" = "t" from rfl, show cexPaper.title = "t" from rfl, hs])
    show ¬ uniqueVenues (update_paper_from_arxiv cexPaper 1 [cexEntry]).1
    rw [h2]
    decide

/-- C1 (amended): every indexed-venue reconciliation preserves the
case-insensitive uniqueness invariant unconditionally, and arXiv-path
reconciliations preserve it provided every publication whose name equals
"arXiv" case-insensitively is spelled exactly "arXiv" and no indexed-venue
candidate introduces such a name under a different spelling; under those
side conditions any sequence of reconciliations preserves the invariant. -/
theorem C1_uniqueness_preserved (p : Paper) (steps : List RecStep)
    (h1 : uniqueVenues p) (h2 : arxivNameOk p) (h3 : ∀ s ∈ steps, stepVenuesOk s) :
    uniqueVenues (applySteps p steps) :=
  (applySteps_inv steps p h3 h1 h2).1

/-- A record satisfying both the uniqueness invariant and the
exact-"arXiv" spelling discipline. -/
def c1wPaper : Paper :=
  { title := "t", authors := some "a", labels := [],
    publications := [⟨"arXiv", some "https://x", some 2020, some 1, some 1, none, none⟩,
                     ⟨"NeurIPS", none, none, none, none, none, none⟩] }

/-- A qualifying indexed-venue candidate for the C1 witness. -/
def c1wHit : DblpHit :=
  { title := some "t", venue := some "ICML", authors := ["A B"],
    year := some "2020", key := some "k", ee := some "u", bibtexFetch := some "b" }

/-- A mixed reconciliation sequence: one arXiv step and one indexed-venue
step with a qualifying candidate. -/
def c1wSteps : List RecStep :=
  [RecStep.arxiv 1 [cexEntry], RecStep.dblp 0 [c1wHit]]

/-- C1 (witness): the amended preservation theorem applied to a concrete
record and a concrete two-step reconciliation sequence. -/
theorem C1_witness :
    uniqueVenues c1wPaper ∧ arxivNameOk c1wPaper ∧ (∀ s ∈ c1wSteps, stepVenuesOk s) ∧
      uniqueVenues (applySteps c1wPaper c1wSteps) :=
  ⟨by decide, by decide, by decide,
    C1_uniqueness_preserved c1wPaper c1wSteps (by decide) (by decide) (by decide)⟩

/-- C4: for every pair of title strings, the similarity score equals `0.7`
times the Jaccard similarity of the sets of distinct whitespace-separated
tokens of the normalized titles (defined as `0` when the union of the
token sets is empty) plus `0.3` times one minus the Levenshtein distance
between the two normalized strings divided by the maximum of their
lengths (defined as `0` when both normalized strings are empty), and the
result lies in `[0, 1]`. -/
theorem C4_score_formula (a b : String) :
    similarity_score a b = specSimilarity a b ∧
      0 ≤ similarity_score a b ∧ similarity_score a b ≤ 1 :=
  ⟨similarity_eq_spec a b, similarity_score_nonneg a b, similarity_score_le_one a b⟩

/-- C5: the similarity score is exactly `1` whenever the two titles are
equal and the normalized title is non-empty. -/
theorem C5_identical_titles (a b : String) (hab : a = b)
    (h : normalize_title a ≠ "") : similarity_score a b = 1 := by
  subst hab
  exact similarity_self a h

/-- C5 (witness): the exact-one theorem applied to a concrete title. -/
theorem C5_witness : normalize_title "spec" ≠ "" ∧ similarity_score "spec" "spec" = 1 :=
  ⟨by decide, C5_identical_titles "spec" "spec" rfl (by decide)⟩

/-- C9 (counterexample): the claim as stated is false at the input "_".
The code's regex `[^\w\s]` keeps underscores (`\w` covers them), so the
code normalizes "_" to "_", while removing every character that is
neither alphanumeric nor whitespace would yield "". -/
theorem C9_counterexample :
    normalize_title "_" = "_" ∧ claimNormalize "_" = "" ∧
      normalize_title "_" ≠ claimNormalize "_" :=
  ⟨by decide, by decide, by decide⟩

/-- C9 (amended): for every input string, `normalize_title` equals the
result of removing all characters that are neither word characters
(alphanumeric or underscore) nor whitespace, lowercasing, collapsing
every run of whitespace to a single space, and trimming both ends; in
particular the empty string normalizes to itself. -/
theorem C9_normalize_spec :
    (∀ s : String, normalize_title s = specNormalize s) ∧ normalize_title "" = "" :=
  ⟨normalize_eq_specNormalize, by decide⟩

theorem arxivMergeEntry_authors (p : Paper) (e : ArxivEntry) :
    (arxivMergeEntry p e).1.authors = (withAuthors p e.authors).1.authors := by
  cases hp : e.published with
  | none => rw [arxivMergeEntry_eq_nodate p e (Or.inl hp)]
  | some d =>
    cases hi : e.idUrl with
    | none => rw [arxivMergeEntry_eq_nodate p e (Or.inr hi)]
    | some id =>
      cases hfind : p.publications.find? arxivPred with
      | some old => rw [arxivMergeEntry_eq_found p e d id hp hi old hfind]
      | none => rw [arxivMergeEntry_eq_notfound p e d id hp hi hfind]

theorem dblpMergeHit_authors (p : Paper) (h : DblpHit) :
    (dblpMergeHit p h).1.authors = (withAuthors p h.authors).1.authors := by
  cases hfind : p.publications.find? (venuePred (h.venue.getD "")) with
  | some old => rw [dblpMergeHit_eq_found p h old hfind]
  | none => rw [dblpMergeHit_eq_notfound p h hfind]

theorem update_arxiv_authors_some (p : Paper) (th : ℚ) (es : List ArxivEntry)
    (s : String) (h : p.authors = some s) :
    (update_paper_from_arxiv p th es).1.authors = some s := by
  induction es with
  | nil => exact h
  | cons e es ih =>
    by_cases hq : th ≤ similarity_score (e.title.getD "") p.title
    · rw [update_arxiv_cons_hit p th e es hq, arxivMergeEntry_authors,
        withAuthors_authors_eq p e.authors s h]
      exact h
    · rw [update_arxiv_cons_miss p th e es hq]
      exact ih

theorem update_dblp_authors_some (p : Paper) (th : ℚ) (hs : List DblpHit)
    (s : String) (h : p.authors = some s) :
    (update_paper_from_dblp p th hs).1.authors = some s := by
  induction hs with
  | nil => exact h
  | cons x hs ih =>
    by_cases hq : th ≤ similarity_score (x.title.getD "") p.title
    · by_cases hv : x.venue.getD "" = "CoRR" ∨ x.venue.getD "" = ""
      · rw [update_dblp_cons_skip p th x hs hv]
        exact ih
      · push_neg at hv
        rw [update_dblp_cons_merge p th x hs hq hv.1 hv.2, dblpMergeHit_authors,
          withAuthors_authors_eq p x.authors s h]
        exact h
    · rw [update_dblp_cons_miss p th x hs hq]
      exact ih

/-- C6: a record whose `authors` field is already populated is never
changed by either reconciliation path, whatever the candidate lists
contain — `authors` is only ever set when it was previously absent. -/
theorem C6_authors_preserved (p : Paper) (s : String) (h : p.authors = some s)
    (th1 th2 : ℚ) (es : List ArxivEntry) (hs : List DblpHit) :
    (update_paper_from_arxiv p th1 es).1.authors = some s ∧
      (update_paper_from_dblp p th2 hs).1.authors = some s :=
  ⟨update_arxiv_authors_some p th1 es s h, update_dblp_authors_some p th2 hs s h⟩

/-- A record with populated authors, for the C6 witness. -/
def c6Paper : Paper :=
  { title := "t", authors := some "Smith", labels := [], publications := [] }

/-- A qualifying arXiv candidate supplying author names. -/
def c6Entry : ArxivEntry :=
  { title := some "t", authors := ["Ada Lovelace"],
    published := some ⟨2020, 1, 1⟩, idUrl := some "http://x" }

/-- A qualifying indexed-venue candidate supplying author names. -/
def c6Hit : DblpHit :=
  { title := some "t", venue := some "ICML", authors := ["Alan Turing"],
    year := some "2020", key := some "k", ee := some "u", bibtexFetch := some "b" }

/-- C6 (witness): the authors-preservation theorem applied to a concrete
record with populated authors and qualifying candidates on both paths. -/
theorem C6_witness :
    c6Paper.authors = some "Smith" ∧
      (update_paper_from_arxiv c6Paper 1 [c6Entry]).1.authors = some "Smith" ∧
      (update_paper_from_dblp c6Paper 1 [c6Hit]).1.authors = some "Smith" :=
  ⟨rfl, (C6_authors_preserved c6Paper "Smith" rfl 1 1 [c6Entry] [c6Hit]).1,
    (C6_authors_preserved c6Paper "Smith" rfl 1 1 [c6Entry] [c6Hit]).2⟩

/-- C7: in the indexed-venue path a qualifying candidate whose venue is
"CoRR" or empty is skipped entirely — the whole reconciliation result
(record and events) is as if that candidate were not in the hit list, so
no field of the record (including authors) is modified from it and the
search proceeds; and the first candidate passing both the threshold and
the venue filter is merged, after which the search stops regardless of
later candidates. -/
theorem C7_venue_filter (p : Paper) (th : ℚ) (h : DblpHit) (hs : List DblpHit) :
    ((h.venue.getD "" = "CoRR" ∨ h.venue.getD "" = "") →
      update_paper_from_dblp p th (h :: hs) = update_paper_from_dblp p th hs) ∧
    (th ≤ similarity_score (h.title.getD "") p.title → h.venue.getD "" ≠ "CoRR" →
      h.venue.getD "" ≠ "" →
      update_paper_from_dblp p th (h :: hs) = dblpMergeHit p h) :=
  ⟨fun hv => update_dblp_cons_skip p th h hs hv,
   fun hq hv1 hv2 => update_dblp_cons_merge p th h hs hq hv1 hv2⟩

/-- A CoRR candidate with a perfect similarity score. -/
def c7Corr : DblpHit :=
  { title := some "t", venue := some "CoRR", authors := ["Ada Lovelace"],
    year := some "2020", key := some "k", ee := some "u", bibtexFetch := some "b" }

/-- C7 (witness): the venue-filter theorem applied to a concrete record, a
perfectly-scoring "CoRR" candidate (skipped) and a qualifying indexed
candidate (merged, stopping the search). -/
theorem C7_witness :
    update_paper_from_dblp c6Paper 1 (c7Corr :: [c6Hit]) =
        update_paper_from_dblp c6Paper 1 [c6Hit] ∧
      update_paper_from_dblp c6Paper 1 (c6Hit :: [c7Corr]) = dblpMergeHit c6Paper c6Hit :=
  ⟨(C7_venue_filter c6Paper 1 c7Corr [c6Hit]).1 (Or.inl rfl),
   (C7_venue_filter c6Paper 1 c6Hit [c7Corr]).2
     (similarity_self "t" (by decide)).ge (by decide) (by decide)⟩

/-- C10: in the arXiv path, when the record's authors are absent and the
first qualifying candidate supplies author names but its publish date is
missing or unparseable (or its id element is missing), the reconciliation
still sets the record's authors from the candidate and counts an arXiv
update (exactly the "authors updated" event is emitted, which sets the
`updated` flag feeding `stats.arxiv_updates`), while the publications
list is left completely unchanged — the authors update and the
publication merge are not atomic. -/
theorem C10_authors_without_publication (p : Paper) (th : ℚ) (e : ArxivEntry)
    (es : List ArxivEntry) (ha : p.authors = none) (hae : e.authors ≠ [])
    (hq : th ≤ similarity_score (e.title.getD "") p.title)
    (hd : e.published = none ∨ e.idUrl = none) :
    (update_paper_from_arxiv p th (e :: es)).1.authors =
        some (extract_authors_last_names (joinSep ", " e.authors)) ∧
      (update_paper_from_arxiv p th (e :: es)).1.publications = p.publications ∧
      (update_paper_from_arxiv p th (e :: es)).2 = [Event.authorsUpdated] := by
  rw [update_arxiv_cons_hit p th e es hq, arxivMergeEntry_eq_nodate p e hd,
    withAuthors_of_none p e.authors ha hae]
  exact ⟨rfl, rfl, rfl⟩

/-- A record with absent authors, for the C10 and C8 witnesses. -/
def c10Paper : Paper :=
  { title := "t", authors := none, labels := [],
    publications := [⟨"NeurIPS", some "u0", none, none, none, none, none⟩] }

/-- A qualifying arXiv candidate with author names but no parseable
publish date. -/
def c10Entry : ArxivEntry :=
  { title := some "t", authors := ["Ada Lovelace", "Alan M. Turing"],
    published := none, idUrl := some "http://x" }

/-- C10 (witness): the non-atomicity theorem applied to a concrete record
and a concrete dateless candidate. -/
theorem C10_witness :
    c10Paper.authors = none ∧ c10Entry.authors ≠ [] ∧
      ((update_paper_from_arxiv c10Paper 1 [c10Entry]).1.authors =
          some (extract_authors_last_names (joinSep ", " c10Entry.authors)) ∧
        (update_paper_from_arxiv c10Paper 1 [c10Entry]).1.publications =
          c10Paper.publications ∧
        (update_paper_from_arxiv c10Paper 1 [c10Entry]).2 = [Event.authorsUpdated]) :=
  ⟨rfl, by decide,
    C10_authors_without_publication c10Paper 1 c10Entry [] rfl (by decide)
      (similarity_self "t" (by decide)).ge (Or.inl rfl)⟩

/-- C8: when the indexed-venue path appends a new Publication for a
qualifying candidate with no case-insensitive venue match, the appended
entry's year is the candidate's year string parsed as an integer, an
unparsable (or missing) year is stored as absent rather than failing, a
"new publication" event is emitted, and the reconciliation succeeds for
arbitrary optional candidate fields (the embedding is a total function;
main_improved.rs defaults every missing field rather than aborting). -/
theorem C8_year_parse_append (p : Paper) (th : ℚ) (h : DblpHit) (hs : List DblpHit)
    (hq : th ≤ similarity_score (h.title.getD "") p.title)
    (hv1 : h.venue.getD "" ≠ "CoRR") (hv2 : h.venue.getD "" ≠ "")
    (hfind : p.publications.find? (venuePred (h.venue.getD "")) = none) :
    (update_paper_from_dblp p th (h :: hs)).1.publications =
        p.publications ++ [dblpNewPub h] ∧
      (dblpNewPub h).year = h.year.bind (fun y => rustParseI32 y) ∧
      (∀ ys, h.year = some ys → rustParseI32 ys = none → (dblpNewPub h).year = none) ∧
      Event.newPublication ∈ (update_paper_from_dblp p th (h :: hs)).2 := by
  rw [update_dblp_cons_merge p th h hs hq hv1 hv2, dblpMergeHit_eq_notfound p h hfind]
  refine ⟨rfl, rfl, ?_, ?_⟩
  · intro ys hys hparse
    show (dblpNewPub h).year = none
    unfold dblpNewPub
    simp [hys, hparse]
  · exact List.mem_append_right _ (List.mem_singleton.mpr rfl)

/-- An indexed-venue candidate whose year string does not parse as an
integer. -/
def c8Hit : DblpHit :=
  { title := some "t", venue := some "ICML", authors := [],
    year := some "20x5", key := none, ee := some "u", bibtexFetch := some "b" }

/-- C8 (witness): the append theorem applied to a concrete record and a
candidate with the unparsable year "20x5" and no key; the appended entry
stores year (and dblp_key, bibtex) as absent and the run does not fail. -/
theorem C8_witness :
    rustParseI32 "20x5" = none ∧
      ((update_paper_from_dblp c10Paper 1 [c8Hit]).1.publications =
          c10Paper.publications ++ [dblpNewPub c8Hit] ∧
        (dblpNewPub c8Hit).year = c8Hit.year.bind (fun y => rustParseI32 y) ∧
        (∀ ys, c8Hit.year = some ys → rustParseI32 ys = none → (dblpNewPub c8Hit).year = none) ∧
        Event.newPublication ∈ (update_paper_from_dblp c10Paper 1 [c8Hit]).2) :=
  ⟨by decide,
    C8_year_parse_append c10Paper 1 c8Hit [] (similarity_self "t" (by decide)).ge
      (by decide) (by decide) (by decide)⟩

theorem pubUpdated_not_in_withAuthors (p : Paper) (as : List String) :
    Event.pubUpdated ∉ (withAuthors p as).2 := by
  rcases withAuthors_events p as with h | h <;> rw [h] <;> simp

theorem newPublication_not_in_withAuthors (p : Paper) (as : List String) :
    Event.newPublication ∉ (withAuthors p as).2 := by
  rcases withAuthors_events p as with h | h <;> rw [h] <;> simp

/-- C3: for every record and first qualifying arXiv candidate with a
parseable publish date and an id URL, the merge builds the fresh
Publication `arxivFresh d id` — named "arXiv", url the candidate id with
any trailing version suffix (v followed by digits) removed and the http
scheme replaced by https, and year/month/day from the publish date — and
replaces the first existing "arXiv" entry wholesale (or appends the fresh
entry if absent); "new publication" is emitted exactly when no "arXiv"
entry existed, and "updated" exactly when an entry existed whose url
differs from the fresh one. -/
theorem C3_arxiv_replace (p : Paper) (th : ℚ) (e : ArxivEntry) (es : List ArxivEntry)
    (d : PDate) (id : String)
    (hq : th ≤ similarity_score (e.title.getD "") p.title)
    (hp : e.published = some d) (hi : e.idUrl = some id) :
    ((arxivFresh d id).name = "arXiv" ∧ (arxivFresh d id).url = some (cleanUrl id) ∧
      (arxivFresh d id).year = some d.year ∧ (arxivFresh d id).month = some d.month ∧
      (arxivFresh d id).day = some d.day ∧ (arxivFresh d id).dblp_key = none ∧
      (arxivFresh d id).bibtex = none) ∧
    (∀ old, p.publications.find? arxivPred = some old →
      (update_paper_from_arxiv p th (e :: es)).1.publications =
          updateFirst arxivPred (fun _ => arxivFresh d id) p.publications ∧
        Event.newPublication ∉ (update_paper_from_arxiv p th (e :: es)).2 ∧
        (Event.pubUpdated ∈ (update_paper_from_arxiv p th (e :: es)).2 ↔
          old.url ≠ some (cleanUrl id))) ∧
    (p.publications.find? arxivPred = none →
      (update_paper_from_arxiv p th (e :: es)).1.publications =
          p.publications ++ [arxivFresh d id] ∧
        Event.newPublication ∈ (update_paper_from_arxiv p th (e :: es)).2 ∧
        Event.pubUpdated ∉ (update_paper_from_arxiv p th (e :: es)).2) := by
  refine ⟨⟨rfl, rfl, rfl, rfl, rfl, rfl, rfl⟩, ?_, ?_⟩
  · intro old hfind
    rw [update_arxiv_cons_hit p th e es hq, arxivMergeEntry_eq_found p e d id hp hi old hfind]
    refine ⟨rfl, ?_, ?_⟩
    · intro hmem
      rcases List.mem_append.mp hmem with hmem2 | hmem2
      · exact newPublication_not_in_withAuthors p e.authors hmem2
      · by_cases hurl : old.url = some (cleanUrl id)
        · rw [if_pos hurl] at hmem2
          simp at hmem2
        · rw [if_neg hurl] at hmem2
          simp at hmem2
    · constructor
      · intro hmem
        rcases List.mem_append.mp hmem with hmem2 | hmem2
        · exact absurd hmem2 (pubUpdated_not_in_withAuthors p e.authors)
        · by_cases hurl : old.url = some (cleanUrl id)
          · rw [if_pos hurl] at hmem2
            simp at hmem2
          · exact hurl
      · intro hurl
        apply List.mem_append_right
        rw [if_neg hurl]
        exact List.mem_singleton.mpr rfl
  · intro hfind
    rw [update_arxiv_cons_hit p th e es hq, arxivMergeEntry_eq_notfound p e d id hp hi hfind]
    refine ⟨rfl, List.mem_append_right _ (List.mem_singleton.mpr rfl), ?_⟩
    intro hmem
    rcases List.mem_append.mp hmem with hmem2 | hmem2
    · exact absurd hmem2 (pubUpdated_not_in_withAuthors p e.authors)
    · simp at hmem2

/-- A record already holding an "arXiv" entry whose url ends in a version
suffix (the v3 scenario of the specification). -/
def c3Paper : Paper :=
  { title := "t", authors := some "Smith", labels := [],
    publications := [⟨"arXiv", some "https://arxiv.org/abs/1706.03762v3", none,
      none, none, none, none⟩] }

/-- A fresh arXiv candidate whose id carries a v5 suffix. -/
def c3Entry : ArxivEntry :=
  { title := some "t", authors := [],
    published := some ⟨2017, 6, 12⟩, idUrl := some "http://arxiv.org/abs/1706.03762v5" }

/-- C3 (witness): the replacement theorem applied to the v3/v5 scenario;
the stored entry is replaced wholesale, "updated" is emitted (the old and
fresh urls differ) and no "new publication" is emitted. -/
theorem C3_witness :
    c3Paper.publications.find? arxivPred =
        some ⟨"arXiv", some "https://arxiv.org/abs/1706.03762v3", none, none, none, none, none⟩ ∧
      ((update_paper_from_arxiv c3Paper 1 [c3Entry]).1.publications =
          updateFirst arxivPred
            (fun _ => arxivFresh ⟨2017, 6, 12⟩ "http://arxiv.org/abs/1706.03762v5")
            c3Paper.publications ∧
        Event.newPublication ∉ (update_paper_from_arxiv c3Paper 1 [c3Entry]).2 ∧
        (Event.pubUpdated ∈ (update_paper_from_arxiv c3Paper 1 [c3Entry]).2 ↔
          (⟨"arXiv", some "https://arxiv.org/abs/1706.03762v3", none, none, none, none,
            none⟩ : Publication).url ≠
            some (cleanUrl "http://arxiv.org/abs/1706.03762v5"))) :=
  ⟨by decide,
    (C3_arxiv_replace c3Paper 1 c3Entry [] ⟨2017, 6, 12⟩ "http://arxiv.org/abs/1706.03762v5"
      (similarity_self "t" (by decide)).ge rfl rfl).2.1
      ⟨"arXiv", some "https://arxiv.org/abs/1706.03762v3", none, none, none, none, none⟩
      (by decide)⟩

/-- The per-publication frame relation of the indexed-venue merge: venue
name and date fields unchanged, every populated field among url,
dblp_key, bibtex byte-identical afterwards, and every change is a fill of
an absent field from the candidate's corresponding value. -/
def fillFrame (h : DblpHit) (q q' : Publication) : Prop :=
  q'.name = q.name ∧ q'.year = q.year ∧ q'.month = q.month ∧ q'.day = q.day ∧
  (∀ v, q.url = some v → q'.url = some v) ∧
  (∀ v, q.dblp_key = some v → q'.dblp_key = some v) ∧
  (∀ v, q.bibtex = some v → q'.bibtex = some v) ∧
  (q'.url = q.url ∨ (q.url = none ∧ q'.url = h.ee)) ∧
  (q'.dblp_key = q.dblp_key ∨ (q.dblp_key = none ∧ q'.dblp_key = h.key)) ∧
  (q'.bibtex = q.bibtex ∨ (q.bibtex = none ∧ q'.bibtex = bibtexVal h))

theorem updateFirst_forall2 (R : Publication → Publication → Prop)
    (pred : Publication → Bool) (f : Publication → Publication)
    (hrefl : ∀ q, R q q) (hfill : ∀ q, R q (f q)) :
    ∀ l : List Publication, List.Forall₂ R l (updateFirst pred f l) := by
  intro l
  induction l with
  | nil => exact List.Forall₂.nil
  | cons p ps ih =>
    show List.Forall₂ R (p :: ps) (if pred p then f p :: ps else p :: updateFirst pred f ps)
    by_cases hp : pred p
    · rw [if_pos hp]
      exact List.Forall₂.cons (hfill p) (List.forall₂_same.mpr (fun x _ => hrefl x))
    · rw [if_neg hp]
      exact List.Forall₂.cons (hrefl p) ih

theorem fillFrame_refl (h : DblpHit) (q : Publication) : fillFrame h q q :=
  ⟨rfl, rfl, rfl, rfl, fun _ hv => hv, fun _ hv => hv, fun _ hv => hv,
    Or.inl rfl, Or.inl rfl, Or.inl rfl⟩

theorem fillFrame_fill (h : DblpHit) (q : Publication) : fillFrame h q (dblpFill h q) := by
  refine ⟨rfl, rfl, rfl, rfl, ?_, ?_, ?_, ?_, ?_, ?_⟩
  · intro v hv
    show fillField q.url h.ee = some v
    rw [hv]
    rfl
  · intro v hv
    show fillField q.dblp_key h.key = some v
    rw [hv]
    rfl
  · intro v hv
    show fillField q.bibtex (bibtexVal h) = some v
    rw [hv]
    rfl
  · cases hu : q.url with
    | some u => exact Or.inl (by show fillField q.url h.ee = some u; rw [hu]; rfl)
    | none => exact Or.inr ⟨rfl, by show fillField q.url h.ee = h.ee; rw [hu]; rfl⟩
  · cases hu : q.dblp_key with
    | some u => exact Or.inl (by show fillField q.dblp_key h.key = some u; rw [hu]; rfl)
    | none => exact Or.inr ⟨rfl, by show fillField q.dblp_key h.key = h.key; rw [hu]; rfl⟩
  · cases hu : q.bibtex with
    | some u =>
      exact Or.inl (by show fillField q.bibtex (bibtexVal h) = some u; rw [hu]; rfl)
    | none =>
      exact Or.inr ⟨rfl, by show fillField q.bibtex (bibtexVal h) = bibtexVal h; rw [hu]; rfl⟩

theorem dblpChanged_iff (h : DblpHit) (old : Publication) :
    dblpChanged h old = true ↔
      ((old.url = none ∧ h.ee ≠ none) ∨ (old.dblp_key = none ∧ h.key ≠ none) ∨
        (old.bibtex = none ∧ bibtexVal h ≠ none)) := by
  unfold dblpChanged
  simp only [Bool.or_eq_true, Bool.and_eq_true, Option.isNone_iff_eq_none,
    Option.isSome_iff_ne_none]
  tauto

/-- C2: when a qualifying indexed-venue candidate matches an existing
Publication case-insensitively, the merge only fills absent url,
dblp_key, bibtex fields from the candidate's corresponding values; every
field among those that was populated before is byte-identical after (and
names and dates are untouched, other publications unchanged — the
`fillFrame` relation holds pairwise along the list), and the "updated"
event is emitted if and only if at least one field was filled. -/
theorem C2_indexed_merge_frame (p : Paper) (th : ℚ) (h : DblpHit) (hs : List DblpHit)
    (old : Publication)
    (hq : th ≤ similarity_score (h.title.getD "") p.title)
    (hv1 : h.venue.getD "" ≠ "CoRR") (hv2 : h.venue.getD "" ≠ "")
    (hfind : p.publications.find? (venuePred (h.venue.getD "")) = some old) :
    List.Forall₂ (fillFrame h) p.publications
        (update_paper_from_dblp p th (h :: hs)).1.publications ∧
      (Event.pubUpdated ∈ (update_paper_from_dblp p th (h :: hs)).2 ↔
        ((old.url = none ∧ h.ee ≠ none) ∨ (old.dblp_key = none ∧ h.key ≠ none) ∨
          (old.bibtex = none ∧ bibtexVal h ≠ none))) := by
  rw [update_dblp_cons_merge p th h hs hq hv1 hv2, dblpMergeHit_eq_found p h old hfind]
  constructor
  · exact updateFirst_forall2 (fillFrame h) (venuePred (h.venue.getD "")) (dblpFill h)
      (fillFrame_refl h) (fillFrame_fill h) p.publications
  · rw [← dblpChanged_iff h old]
    constructor
    · intro hmem
      rcases List.mem_append.mp hmem with hmem2 | hmem2
      · exact absurd hmem2 (pubUpdated_not_in_withAuthors p h.authors)
      · by_cases hch : dblpChanged h old = true
        · exact hch
        · rw [if_neg hch] at hmem2
          simp at hmem2
    · intro hch
      apply List.mem_append_right
      rw [if_pos hch]
      exact List.mem_singleton.mpr rfl

/-- The record of the specification's NeurIPS scenario: dblp_key already
populated, bibtex and url absent. -/
def c2Paper : Paper :=
  { title := "t", authors := some "Smith", labels := [],
    publications := [⟨"NeurIPS", none, none, none, none, some "conf/nips/X20", none⟩] }

/-- A qualifying candidate whose venue matches "NeurIPS" only
case-insensitively and which supplies a key, a url and a bibtex blob. -/
def c2Hit : DblpHit :=
  { title := some "t", venue := some "neurips", authors := [],
    year := some "2020", key := some "other/key", ee := some "https://u",
    bibtexFetch := some "@inproceedings" }

/-- C2 (witness): the frame theorem applied to the NeurIPS scenario; the
populated dblp_key survives byte-identically, absent fields are filled
from the candidate, and "updated" is emitted. -/
theorem C2_witness :
    c2Paper.publications.find? (venuePred (c2Hit.venue.getD "")) =
        some ⟨"NeurIPS", none, none, none, none, some "conf/nips/X20", none⟩ ∧
      (List.Forall₂ (fillFrame c2Hit) c2Paper.publications
          (update_paper_from_dblp c2Paper 1 [c2Hit]).1.publications ∧
        (Event.pubUpdated ∈ (update_paper_from_dblp c2Paper 1 [c2Hit]).2 ↔
          ((⟨"NeurIPS", none, none, none, none, some "conf/nips/X20", none⟩ : Publication).url
              = none ∧ c2Hit.ee ≠ none) ∨
            ((⟨"NeurIPS", none, none, none, none, some "conf/nips/X20", none⟩ :
                Publication).dblp_key = none ∧ c2Hit.key ≠ none) ∨
            ((⟨"NeurIPS", none, none, none, none, some "conf/nips/X20", none⟩ :
                Publication).bibtex = none ∧ bibtexVal c2Hit ≠ none))) :=
  ⟨by decide,
    C2_indexed_merge_frame c2Paper 1 c2Hit [] ⟨"NeurIPS", none, none, none, none,
      some "conf/nips/X20", none⟩ (similarity_self "t" (by decide)).ge
      (by decide) (by decide) (by decide)⟩
